import Mathlib

/-!
Verification development for a byte-oriented Huffman file compressor
(source: `dsa-cep/main.py`).

The embedding below translates the Python source into Lean:

* bytes are `Nat` (with `< 256` hypotheses where byte-ness matters),
  byte sequences are `List Nat`, bit-strings are `List Bool`
  (`false` = the character "0", `true` = the character "1");
* the Python `Node` class (with its `None` child pointers) becomes the
  inductive `Node` below, whose `nil` constructor models Python `None`;
* Python exceptions become `Except` errors (`ValueError` raise sites keep
  one constructor per message; the `AttributeError` that `serialize`
  raises when it dereferences a `None` child is `CErr.attrError`;
  the `KeyError` that `encode_bytes` can raise is `CErr.keyError`);
* file writes become the `writes` field of `CompressResult`: the list of
  successive contents written to the destination path, in order
  (the Python code can write the destination twice: first the container,
  then a verbatim copy of the source when compression would not shrink);
* `heapq` is the Python standard library binary min-heap, used through
  `Node.__lt__` which compares by `freq` only.  It is modelled by its
  documented contract - a priority structure whose pop returns a
  minimal-weight element - as a weight-sorted list with stable insertion
  (`heappush` inserts after equal weights, pop takes the head).  No claim
  proved here depends on the tie-break among equal weights;
* wall-clock timing statistics and the path arguments of `open` are
  dropped; everything else in the statistics record is kept.
-/

deriving instance DecidableEq for Except

namespace Huff

/-- The 4-byte file signature `b'HUFF'` from the source. -/
def MAGIC : List Nat := [72, 85, 70, 70]

/-- Python `str.lower()` (ASCII case mapping, the only kind occurring in
file names here), modelled on the character list. -/
def pyLower (s : String) : String := ⟨s.data.map Char.toLower⟩

/-- Python `str.strip()`: drop leading and trailing whitespace, modelled on
the character list. -/
def pyStrip (s : String) : String :=
  ⟨((s.data.dropWhile Char.isWhitespace).reverse.dropWhile Char.isWhitespace).reverse⟩

/-- Python `s.endswith(t)`, modelled on the character list. -/
def pyEndsWith (s t : String) : Bool :=
  decide (s.data.drop (s.data.length - t.data.length) = t.data)

/-- Python `Node`: `nil` models the Python value `None`; `mk sym freq left right`
models a `Node` object (`sym` is `None` for internal nodes, `0..255` for leaves). -/
inductive Node where
  | nil : Node
  | mk (sym : Option Nat) (freq : Nat) (left : Node) (right : Node) : Node
deriving Repr, DecidableEq

/-- Attribute access `node.sym` (Python would raise on `None`; unreachable there). -/
def Node.sym : Node → Option Nat
  | .nil => none
  | .mk s _ _ _ => s

/-- Attribute access `node.freq`. -/
def Node.freq : Node → Nat
  | .nil => 0
  | .mk _ f _ _ => f

/-- Attribute access `node.left`. -/
def Node.left : Node → Node
  | .nil => .nil
  | .mk _ _ l _ => l

/-- Attribute access `node.right`. -/
def Node.right : Node → Node
  | .nil => .nil
  | .mk _ _ _ r => r

/-- Helper for `uniqueSyms`: the elements of the first list not in `seen`,
keeping first occurrences in order. -/
def uniqueAux : List Nat → List Nat → List Nat
  | [], _ => []
  | b :: rest, seen =>
    if b ∈ seen then uniqueAux rest seen else b :: uniqueAux rest (b :: seen)

/-- The distinct byte values of `data` in first-occurrence order: the key
order of `collections.Counter(data)` (Python dicts preserve insertion order). -/
def uniqueSyms (data : List Nat) : List Nat := uniqueAux data []

/-- `build_freq_map`: `dict(Counter(data))` - each distinct byte mapped to its
occurrence count, keys in first-occurrence order. -/
def build_freq_map (data : List Nat) : List (Nat × Nat) :=
  (uniqueSyms data).map (fun b => (b, data.count b))

/-- `heapq.heappush` on the min-heap ordered by `Node.__lt__` (weight only):
modelled as stable insertion into a weight-sorted list (see module comment). -/
def heappush (h : List Node) (x : Node) : List Node :=
  match h with
  | [] => [x]
  | y :: ys => if x.freq < y.freq then x :: y :: ys else y :: heappush ys x

/-- `heap_from_freq`: push one leaf node per `(sym, freq)` entry. -/
def heap_from_freq (freq_map : List (Nat × Nat)) : List Node :=
  freq_map.foldl (fun h p => heappush h (Node.mk (some p.1) p.2 Node.nil Node.nil)) []

/-- The `while len(h) > 1` merge loop of `build_tree`, fuel-indexed so that
it reduces in the kernel: each iteration pops the two minimal-weight nodes,
merges them into an internal node (first popped on the left) and pushes it
back.  Each iteration shrinks the heap by exactly one, so fuel equal to the
heap length (as passed by `mergeLoop`) can never run out. -/
def mergeLoopF : Nat → List Node → Node
  | _, [] => Node.nil
  | _, [t] => t
  | 0, _ :: _ :: _ => Node.nil
  | f + 1, a :: b :: rest => mergeLoopF f (heappush rest (Node.mk none (a.freq + b.freq) a b))

/-- The `while len(h) > 1` merge loop of `build_tree`. -/
def mergeLoop (h : List Node) : Node := mergeLoopF h.length h

/-- `build_tree`: `None` for an empty heap; a single symbol is wrapped under a
parent whose `left` is the lone leaf (its `right` stays `None`); otherwise the
greedy merge loop runs until one node remains. -/
def build_tree : List Node → Node
  | [] => Node.nil
  | [single] => Node.mk none single.freq single Node.nil
  | h => mergeLoop h

/-- The inner `walk` of `make_codes`: a node with a symbol stores its
accumulated path (or "0" when the path is empty); an internal node recurses
into each non-`None` child, appending "0" on the left and "1" on the right.
New dict assignments are modelled by prepending, so that `List.lookup`
(first match) has exactly Python dict-lookup semantics. -/
def walk : Node → List Bool → List (Nat × List Bool) → List (Nat × List Bool)
  | .nil, _, codes => codes
  | .mk (some s) _ _ _, pre, codes => (s, if pre = [] then [false] else pre) :: codes
  | .mk none _ l r, pre, codes =>
    let c1 := if l = Node.nil then codes else walk l (pre ++ [false]) codes
    if r = Node.nil then c1 else walk r (pre ++ [true]) c1

/-- `make_codes`: empty table for a `None` root, else walk from the root. -/
def make_codes : Node → List (Nat × List Bool)
  | Node.nil => []
  | root => walk root [] []

/-- Total preorder encoding of a tree: `0x01 sym` for a node carrying a
symbol, `0x00 left right` for an internal node.  This is the blob `serialize`
produces whenever it does not crash. -/
def ser : Node → List Nat
  | .nil => []
  | .mk (some s) _ _ _ => [1, s]
  | .mk none _ l r => 0 :: (ser l ++ ser r)

/-- The inner `dfs` of `serialize`.  `none` models the `AttributeError`
Python raises when `dfs` is called on a `None` child (which happens on the
single-symbol wrapper node, whose `right` is `None`). -/
def serializeDfs : Node → Option (List Nat)
  | .nil => none
  | .mk (some s) _ _ _ => some [1, s]
  | .mk none _ l r =>
    match serializeDfs l with
    | none => none
    | some a =>
      match serializeDfs r with
      | none => none
      | some b => some (0 :: (a ++ b))

/-- `serialize`: empty blob for a `None` root, else `dfs(root)`. -/
def serialize : Node → Option (List Nat)
  | .nil => some []
  | t => serializeDfs t

/-- Error type for `deserialize`, one constructor per `raise ValueError` site:
`truncatedTag` = "Bad tree data: ran out", `truncatedLeaf` = "Bad tree: leaf
missing byte", `badFlag` = "Bad tree flag ...", `trailing` = "Extra bytes
after tree data". -/
inductive TErr where
  | truncatedTag : TErr
  | truncatedLeaf : TErr
  | badFlag (flag : Nat) : TErr
  | trailing : TErr
deriving Repr, DecidableEq

/-- The inner `dfs` of `deserialize`, parsing one tree from the front of the
remaining blob and returning the unparsed remainder (index arithmetic on the
original blob is replaced by the remaining suffix).  Fuel-indexed so that it
reduces in the kernel: each recursion level consumes at least one byte first,
so fuel equal to the blob length (as passed by `deserialize`) can never run
out - the fuel-exhaustion branch repeats the empty-input error and is
unreachable there (`parseTreeF_fuel_irrel`). -/
def parseTreeF : Nat → List Nat → Except TErr (Node × List Nat)
  | _, [] => .error TErr.truncatedTag
  | 0, _ :: _ => .error TErr.truncatedTag
  | _ + 1, 1 :: rest =>
    match rest with
    | [] => .error TErr.truncatedLeaf
    | s :: rest2 => .ok (Node.mk (some s) 0 Node.nil Node.nil, rest2)
  | f + 1, 0 :: rest =>
    match parseTreeF f rest with
    | .error e => .error e
    | .ok (left_node, r1) =>
      match parseTreeF f r1 with
      | .error e => .error e
      | .ok (right_node, r2) => .ok (Node.mk none 0 left_node right_node, r2)
  | _ + 1, flag :: _ => .error (TErr.badFlag flag)

/-- `deserialize`: empty blob gives a `None` root; otherwise parse one tree
and require that no bytes remain. -/
def deserialize (blob : List Nat) : Except TErr Node :=
  if blob = [] then .ok Node.nil
  else
    match parseTreeF blob.length blob with
    | .error e => .error e
    | .ok (root, rest) => if rest = [] then .ok root else .error TErr.trailing

/-- Error type for compression: `keyError` models the `KeyError` of
`codes[b]` in `encode_bytes`; `attrError` the `AttributeError` of
`serialize` on a `None` child. -/
inductive CErr where
  | keyError : CErr
  | attrError : CErr
deriving Repr, DecidableEq

/-- `encode_bytes`: substitute each input byte by its code, concatenated. -/
def encode_bytes (data : List Nat) (codes : List (Nat × List Bool)) :
    Except CErr (List Bool) :=
  match data with
  | [] => .ok []
  | b :: rest =>
    match codes.lookup b with
    | none => .error CErr.keyError
    | some c =>
      match encode_bytes rest codes with
      | .error e => .error e
      | .ok tail => .ok (c ++ tail)

/-- `pad_bits`: right-pad with zero bits to a byte boundary; empty stays
empty with pad count 0. -/
def pad_bits (bits : List Bool) : List Bool × Nat :=
  if bits.length = 0 then ([], 0)
  else
    let extra := (8 - bits.length % 8) % 8
    (bits ++ List.replicate extra false, extra)

/-- The numeric value of a bit-string, most significant bit first
(`int(byte, 2)` on a chunk). -/
def bitsVal (bits : List Bool) : Nat :=
  bits.foldl (fun a b => 2 * a + (if b then 1 else 0)) 0

/-- `bits_to_bytes`, fuel-indexed so that it reduces in the kernel: each
step consumes 8 bits and one unit of fuel, so fuel equal to the bit count
(as passed by `bits_to_bytes`) can never run out. -/
def bits_to_bytesF : Nat → List Bool → List Nat
  | _, [] => []
  | 0, _ :: _ => []
  | f + 1, bits => bitsVal (bits.take 8) :: bits_to_bytesF f (bits.drop 8)

/-- `bits_to_bytes`: pack 8-bit chunks (MSB first) into byte values. -/
def bits_to_bytes (bits : List Bool) : List Nat := bits_to_bytesF bits.length bits

/-- The 8 bits of one byte, most significant first (`f"{x:08b}"` for a value
below 256). -/
def byteBits (x : Nat) : List Bool :=
  (List.range 8).map (fun i => x.testBit (7 - i))

/-- `bytes_to_bits`: expand every byte to its 8 bits, MSB first. -/
def bytes_to_bits (bts : List Nat) : List Bool :=
  (bts.map byteBits).flatten

/-- `struct.pack(">I", n)`: big-endian 32-bit encoding (total here; Python
would raise for `n ≥ 2^32`, never hit on this call site). -/
def beU32enc (n : Nat) : List Nat :=
  [n / 16777216 % 256, n / 65536 % 256, n / 256 % 256, n % 256]

/-- `struct.unpack(">I", bs)[0]` on a 4-byte slice. -/
def beU32val (bs : List Nat) : Nat :=
  bs.foldl (fun a x => a * 256 + x) 0

/-- The statistics record `compress_file` / `decompress_file` build
(timings and the path strings dropped; ratios are exact rationals in place
of Python floats). -/
structure Stats where
  original_bytes : Nat
  compressed_bytes : Nat
  unique_symbols : Nat
  pad_count : Option Nat
  compression_ratio : Option ℚ
  space_saved_percent : Option ℚ
  skipped : Bool
  note : Option String
deriving Repr, DecidableEq

/-- The observable outcome of one `compress_file` call: the returned root
(`nil` for Python `None`), the successive contents written to the
destination path (empty list = destination never opened), and the
statistics record. -/
structure CompressResult where
  root : Node
  writes : List (List Nat)
  stats : Stats
deriving Repr, DecidableEq

/-- The tuple of already-compressed extensions from the source. -/
def alreadyCompressedExts : List String :=
  [".zip", ".gz", ".7z", ".rar", ".jpeg", ".jpg", ".png", ".gif",
   ".mp3", ".mp4", ".avi", ".mov", ".odt", ".docx", ".xlsx"]

/-- Skip condition 1: the raw bytes start with the magic marker
(`raw.startswith(MAGIC)`), or the cleaned source name
(`str(src).strip().lower()`) ends in `.huff`. -/
def skipHuff (src : String) (raw : List Nat) : Bool :=
  decide (raw.take 4 = MAGIC) || pyEndsWith (pyLower (pyStrip src)) ".huff"

/-- Skip condition 2: the cleaned source name has a known already-compressed
extension. -/
def skipExt (src : String) : Bool :=
  alreadyCompressedExts.any (fun e => pyEndsWith (pyLower (pyStrip src)) e)

/-- The normal-path pipeline of `compress_file` (lines 250-264 of the
source), up to and including tree serialization: frequency map, heap, tree,
code table, bit packing, tree blob.  Returns
`(root, freq, tree_blob, pad_count, compressed)`. -/
def huffman_pack (raw : List Nat) :
    Except CErr (Node × List (Nat × Nat) × List Nat × Nat × List Nat) :=
  let freq := build_freq_map raw
  let h := heap_from_freq freq
  let root := build_tree h
  let codes := make_codes root
  match (if root ≠ Node.nil then encode_bytes raw codes else .ok []) with
  | .error e => .error e
  | .ok bitstr =>
    let pr := pad_bits bitstr
    let compressed := bits_to_bytes pr.1
    match serialize root with
    | none => .error CErr.attrError
    | some tree_blob => .ok (root, freq, tree_blob, pr.2, compressed)

/-- The part of `compress_file` after both skip checks (lines 249-326 of the
source, which do not use the source path): pipeline, container write, and
the would-not-shrink check that copies the source verbatim over the
destination. -/
def compress_normal (raw : List Nat) : Except CErr CompressResult :=
  let original_bytes := raw.length
  match huffman_pack raw with
  | .error e => .error e
  | .ok (root, freq, tree_blob, pad_count, compressed) =>
    let tree_len := tree_blob.length
    let container := MAGIC ++ beU32enc tree_len ++ tree_blob ++ [pad_count] ++ compressed
    let compressed_bytes_total := 4 + 4 + tree_len + 1 + compressed.length
    if compressed_bytes_total ≥ original_bytes then
      .ok { root := Node.nil, writes := [container, raw],
            stats := { original_bytes := original_bytes, compressed_bytes := original_bytes,
                       unique_symbols := freq.length, pad_count := some pad_count,
                       compression_ratio := some 1, space_saved_percent := some 0,
                       skipped := true,
                       note := some "The uploaded file appears to be already compressed; compression cannot reduce its size." } }
    else
      .ok { root := root, writes := [container],
            stats := { original_bytes := original_bytes, compressed_bytes := compressed_bytes_total,
                       unique_symbols := freq.length, pad_count := some pad_count,
                       compression_ratio :=
                         if original_bytes > 0 then
                           some ((compressed_bytes_total : ℚ) / (original_bytes : ℚ))
                         else none,
                       space_saved_percent :=
                         if original_bytes > 0 then
                           some ((((original_bytes : ℚ) - (compressed_bytes_total : ℚ))
                                   / (original_bytes : ℚ)) * 100)
                         else none,
                       skipped := false, note := none } }

/-- `compress_file`: the two skip checks, then the normal path. -/
def compress_file (src : String) (raw : List Nat) : Except CErr CompressResult :=
  let original_bytes := raw.length
  if skipHuff src raw then
    .ok { root := Node.nil, writes := [],
          stats := { original_bytes := original_bytes, compressed_bytes := raw.length,
                     unique_symbols := 0, pad_count := none, compression_ratio := none,
                     space_saved_percent := none, skipped := true,
                     note := some "Input file is already in .huff format (double-compression prevented)." } }
  else if skipExt src then
    .ok { root := Node.nil, writes := [],
          stats := { original_bytes := original_bytes, compressed_bytes := original_bytes,
                     unique_symbols := 0, pad_count := none, compression_ratio := some 1,
                     space_saved_percent := some 0, skipped := true,
                     note := some "This file type is likely already compressed (skipped compression)." } }
  else compress_normal raw

/-- Error type for decompression, one constructor per `raise ValueError`
site: `tooSmall` = "Not a valid .huff (too small)", `badMagic` = "Not a
.huff file (magic mismatch)", `badTreeLen` = "Header tree length
unrealistic", `padTooBig` = "Padding bigger than stream", `tree e` wraps a
`deserialize` failure, `corrupt` = "Corrupt bitstream (walked to None)". -/
inductive DErr where
  | tooSmall : DErr
  | badMagic : DErr
  | badTreeLen : DErr
  | padTooBig : DErr
  | tree (e : TErr) : DErr
  | corrupt : DErr
deriving Repr, DecidableEq

/-- The container-parsing stage of `decompress_file` (lines 336-353 of the
source): size check, magic check, declared tree length consistency check;
on success the declared tree length, the tree blob, the padding byte and
the payload, by fixed offsets.  `raw[cursor]` is modelled as
`(raw.drop cursor).headD 0`, equal to the indexed access under the verified
bound. -/
def parse_container (raw : List Nat) : Except DErr (Nat × List Nat × Nat × List Nat) :=
  if raw.length < 9 then .error DErr.tooSmall
  else if raw.take 4 ≠ MAGIC then .error DErr.badMagic
  else
    let tree_len := beU32val ((raw.drop 4).take 4)
    if 8 + tree_len + 1 > raw.length then .error DErr.badTreeLen
    else .ok (tree_len, (raw.drop 8).take tree_len,
              (raw.drop (8 + tree_len)).headD 0, raw.drop (9 + tree_len))

/-- The decoding loop of `decompress_file`: from the current node, a 0 bit
steps left and a 1 bit steps right; stepping to `None` is a corrupt stream;
reaching a node that carries a symbol emits it and resets to the root. -/
def decodeFrom (root : Node) : Node → List Bool → Except DErr (List Nat)
  | _, [] => .ok []
  | cur, b :: rest =>
    match (if b then cur.right else cur.left) with
    | Node.nil => .error DErr.corrupt
    | Node.mk (some s) _ _ _ => Except.map (fun out => s :: out) (decodeFrom root root rest)
    | Node.mk none f l r => decodeFrom root (Node.mk none f l r) rest

/-- `decompress_file`: parse the container, unpad the bit stream,
reconstruct the tree (a zero-length tree blob gives a `None` root), decode.
The returned byte list is the content written to the destination. -/
def decompress_file (raw : List Nat) : Except DErr (List Nat) := do
  let (tree_len, tree_blob, pad_count, comp_bytes) ← parse_container raw
  let bits0 := bytes_to_bits comp_bytes
  let bitstr ←
    if pad_count > 0 then
      if pad_count > bits0.length then Except.error DErr.padTooBig
      else pure (bits0.take (bits0.length - pad_count))
    else pure bits0
  let root ← if tree_len > 0 then (deserialize tree_blob).mapError DErr.tree else pure Node.nil
  match root with
  | Node.nil => pure []
  | r => decodeFrom r r bitstr

/-! Helper projections used to state closed (fully evaluated) facts about
`compress_file` results. -/

/-- The sequence of destination writes of a compression call, when it did
not raise. -/
def compressWrites (src : String) (raw : List Nat) : Option (List (List Nat)) :=
  (compress_file src raw).toOption.map CompressResult.writes

/-- The skip flag of a compression call, when it did not raise. -/
def compressSkipped (src : String) (raw : List Nat) : Option Bool :=
  (compress_file src raw).toOption.map (fun r => r.stats.skipped)

/-- Whether an `Except` computation succeeded. -/
def exceptOk {ε α : Type _} : Except ε α → Bool
  | .ok _ => true
  | .error _ => false

/-! Structural predicates and helper functions about trees, used to state
the claims.  These are spec-side notions, not translations of source code. -/

/-- A well-shaped encoder tree: every node either carries a symbol and has
no children, or carries no symbol and has two non-`nil` well-shaped
children.  This is the shape `build_tree` produces from two or more
symbols; the single-symbol wrapper node (whose right child is `nil`)
does not satisfy it. -/
def proper : Node → Bool
  | .nil => false
  | .mk (some _) _ l r => decide (l = Node.nil) && decide (r = Node.nil)
  | .mk none _ l r => proper l && proper r

/-- The exact image of `parseTreeF`: a `proper` tree all of whose weights
are the placeholder 0. -/
def isPure : Node → Bool
  | .nil => false
  | .mk (some _) f l r => decide (f = 0) && decide (l = Node.nil) && decide (r = Node.nil)
  | .mk none f l r => decide (f = 0) && isPure l && isPure r

/-- The data model of the specification: every node is either a leaf
holding one byte-valued symbol (0-255) and no children, or an internal
node holding no symbol and two non-null children. -/
def dataModel : Node → Bool
  | .nil => false
  | .mk (some s) _ l r => decide (s < 256) && decide (l = Node.nil) && decide (r = Node.nil)
  | .mk none _ l r => dataModel l && dataModel r

/-- Fullness: every symbol-free (internal) node has both children
non-`nil`.  (Nodes that carry a symbol act as leaves everywhere in the
source, so their children are not constrained.) -/
def internalFull : Node → Bool
  | .nil => true
  | .mk (some _) _ l r => internalFull l && internalFull r
  | .mk none _ l r =>
    decide (l ≠ Node.nil) && decide (r ≠ Node.nil) && internalFull l && internalFull r

/-- Same shape and same symbols, ignoring the stored weights. -/
def sameShapeSym : Node → Node → Bool
  | .nil, .nil => true
  | .mk s1 _ l1 r1, .mk s2 _ l2 r2 =>
    decide (s1 = s2) && sameShapeSym l1 l2 && sameShapeSym r1 r2
  | _, _ => false

/-- The tree with every weight replaced by 0 (what deserialization of the
serialized tree reconstructs). -/
def zeroFreq : Node → Node
  | .nil => .nil
  | .mk s _ l r => .mk s 0 (zeroFreq l) (zeroFreq r)

/-- The symbols stored in a tree, by the leaf-first convention every
traversal of the source uses (a node carrying a symbol counts as a leaf). -/
def leafSyms : Node → List Nat
  | .nil => []
  | .mk (some s) _ _ _ => [s]
  | .mk none _ l r => leafSyms l ++ leafSyms r

/-- Following a code from node `t` with the decoder's stepping rule:
`some s` exactly when the decoder consumes the whole code, meets no
symbol-carrying node strictly before its end, and ends on a node carrying
symbol `s`. -/
def codeLands : Node → List Bool → Option Nat
  | _, [] => none
  | t, b :: rest =>
    match (if b then t.right else t.left) with
    | Node.nil => none
    | Node.mk (some s) _ _ _ => if rest = [] then some s else none
    | Node.mk none f l r => codeLands (Node.mk none f l r) rest

/-- The code table of a subtree with codes relative to the subtree root
(no empty-path special case).  Listed right before left, matching the
prepend order of `walk`. -/
def walkRel : Node → List (Nat × List Bool)
  | .nil => []
  | .mk (some s) _ _ _ => [(s, [])]
  | .mk none _ l r =>
    (if r = Node.nil then [] else (walkRel r).map (fun p => (p.1, true :: p.2))) ++
    (if l = Node.nil then [] else (walkRel l).map (fun p => (p.1, false :: p.2)))

/-! Lemmas about the heap model and the frequency map. -/

theorem length_heappush (h : List Node) (x : Node) :
    (heappush h x).length = h.length + 1 := by
  induction h with
  | nil => rfl
  | cons y ys ih =>
    simp only [heappush]
    split <;> simp [ih]

theorem mem_heappush {h : List Node} {x t : Node} :
    t ∈ heappush h x ↔ t ∈ h ∨ t = x := by
  induction h with
  | nil => simp [heappush]
  | cons y ys ih =>
    simp only [heappush]
    split
    · simp only [List.mem_cons]
      tauto
    · simp only [List.mem_cons, ih]
      tauto

theorem sum_map_heappush (h : List Node) (x : Node) (f : Node → Nat) :
    ((heappush h x).map f).sum = f x + (h.map f).sum := by
  induction h with
  | nil => simp [heappush]
  | cons y ys ih =>
    simp only [heappush]
    split
    · simp
    · simp only [List.map_cons, List.sum_cons, ih]
      omega

theorem mergeLoop_cons (a b : Node) (rest : List Node) :
    mergeLoop (a :: b :: rest) =
      mergeLoop (heappush rest (Node.mk none (a.freq + b.freq) a b)) := by
  simp [mergeLoop, mergeLoopF, length_heappush]

theorem mem_uniqueAux {l seen : List Nat} {x : Nat} :
    x ∈ uniqueAux l seen ↔ x ∈ l ∧ x ∉ seen := by
  induction l generalizing seen with
  | nil => simp [uniqueAux]
  | cons b rest ih =>
    simp only [uniqueAux]
    split
    · rename_i hb
      rw [ih]
      simp only [List.mem_cons]
      constructor
      · tauto
      · rintro ⟨hx | hx, hns⟩
        · exact absurd hb (hx ▸ hns)
        · exact ⟨hx, hns⟩
    · rename_i hb
      simp only [List.mem_cons, ih, List.mem_cons]
      constructor
      · rintro (rfl | ⟨hx, hne⟩)
        · exact ⟨Or.inl rfl, hb⟩
        · exact ⟨Or.inr hx, fun hs => hne (Or.inr hs)⟩
      · rintro ⟨rfl | hx, hns⟩
        · exact Or.inl rfl
        · by_cases hxb : x = b
          · exact Or.inl hxb
          · exact Or.inr ⟨hx, fun hs => hs.elim hxb hns⟩

theorem mem_uniqueSyms {data : List Nat} {x : Nat} :
    x ∈ uniqueSyms data ↔ x ∈ data := by
  simp [uniqueSyms, mem_uniqueAux]

theorem nodup_uniqueAux (l : List Nat) (seen : List Nat) :
    (uniqueAux l seen).Nodup := by
  induction l generalizing seen with
  | nil => simp [uniqueAux]
  | cons b rest ih =>
    simp only [uniqueAux]
    split
    · exact ih seen
    · refine List.nodup_cons.mpr ⟨fun hmem => ?_, ih (b :: seen)⟩
      exact (mem_uniqueAux.mp hmem).2 (List.mem_cons_self b seen)

theorem nodup_uniqueSyms (data : List Nat) : (uniqueSyms data).Nodup :=
  nodup_uniqueAux data []

theorem build_freq_map_fst (data : List Nat) :
    (build_freq_map data).map Prod.fst = uniqueSyms data := by
  simp [build_freq_map, List.map_map, Function.comp_def]

theorem length_build_freq_map (data : List Nat) :
    (build_freq_map data).length = (uniqueSyms data).length := by
  simp [build_freq_map]

theorem build_freq_map_eq_nil {data : List Nat} :
    build_freq_map data = [] ↔ data = [] := by
  cases data with
  | nil => simp [build_freq_map, uniqueSyms, uniqueAux]
  | cons b rest =>
    simp [build_freq_map, uniqueSyms, uniqueAux]

theorem mem_heap_from_freq {fm : List (Nat × Nat)} {t : Node} :
    t ∈ heap_from_freq fm ↔ ∃ p ∈ fm, t = Node.mk (some p.1) p.2 Node.nil Node.nil := by
  have general : ∀ (acc : List Node),
      t ∈ fm.foldl (fun h p => heappush h (Node.mk (some p.1) p.2 Node.nil Node.nil)) acc ↔
        t ∈ acc ∨ ∃ p ∈ fm, t = Node.mk (some p.1) p.2 Node.nil Node.nil := by
    induction fm with
    | nil => simp
    | cons q qs ih =>
      intro acc
      simp only [List.foldl_cons, ih, mem_heappush, List.mem_cons]
      constructor
      · rintro ((hacc | rfl) | ⟨p, hp, rfl⟩)
        · exact Or.inl hacc
        · exact Or.inr ⟨q, Or.inl rfl, rfl⟩
        · exact Or.inr ⟨p, Or.inr hp, rfl⟩
      · rintro (hacc | ⟨p, rfl | hp, rfl⟩)
        · exact Or.inl (Or.inl hacc)
        · exact Or.inl (Or.inr rfl)
        · exact Or.inr ⟨p, hp, rfl⟩
  simpa using general []

theorem sum_map_heap_from_freq (fm : List (Nat × Nat)) (f : Node → Nat) :
    ((heap_from_freq fm).map f).sum =
      (fm.map (fun p => f (Node.mk (some p.1) p.2 Node.nil Node.nil))).sum := by
  have general : ∀ (acc : List Node),
      ((fm.foldl (fun h p => heappush h (Node.mk (some p.1) p.2 Node.nil Node.nil)) acc).map f).sum =
        (acc.map f).sum + (fm.map (fun p => f (Node.mk (some p.1) p.2 Node.nil Node.nil))).sum := by
    induction fm with
    | nil => simp
    | cons q qs ih =>
      intro acc
      simp only [List.foldl_cons, ih, List.map_cons, List.sum_cons, sum_map_heappush]
      omega
  simpa using general []

theorem length_heap_from_freq (fm : List (Nat × Nat)) :
    (heap_from_freq fm).length = fm.length := by
  have general : ∀ (acc : List Node),
      (fm.foldl (fun h p => heappush h (Node.mk (some p.1) p.2 Node.nil Node.nil)) acc).length =
        acc.length + fm.length := by
    induction fm with
    | nil => simp
    | cons q qs ih =>
      intro acc
      simp only [List.foldl_cons, ih, length_heappush, List.length_cons]
      omega
  simpa using general []

/-! Lemmas about the merge loop and `build_tree`. -/

theorem mergeLoop_single (t : Node) : mergeLoop [t] = t := rfl

theorem mergeLoop_spec :
    ∀ (n : Nat) (h : List Node), h.length ≤ n → 2 ≤ h.length →
      (∀ t ∈ h, proper t = true) →
      proper (mergeLoop h) = true ∧ (mergeLoop h).sym = none ∧
      (∀ s, s ∈ leafSyms (mergeLoop h) ↔ ∃ t ∈ h, s ∈ leafSyms t) ∧
      (leafSyms (mergeLoop h)).length = (h.map fun t => (leafSyms t).length).sum := by
  intro n
  induction n with
  | zero =>
    intro h hle h2 _
    omega
  | succ n ih =>
    intro h hle h2 hall
    match h, h2 with
    | a :: b :: rest, _ =>
      rw [mergeLoop_cons]
      have ha : proper a = true := hall a (by simp)
      have hb : proper b = true := hall b (by simp)
      have hp : proper (Node.mk none (a.freq + b.freq) a b) = true := by
        simp [proper, ha, hb]
      by_cases hrest : rest = []
      · subst hrest
        have hpush : heappush [] (Node.mk none (a.freq + b.freq) a b) =
            [Node.mk none (a.freq + b.freq) a b] := rfl
        rw [hpush, mergeLoop_single]
        refine ⟨hp, rfl, ?_, ?_⟩
        · intro s
          simp [leafSyms]
        · simp [leafSyms]
      · have hlen : 2 ≤ (heappush rest (Node.mk none (a.freq + b.freq) a b)).length := by
          rw [length_heappush]
          cases rest with
          | nil => exact absurd rfl hrest
          | cons _ _ => simp
        have hlen2 : (heappush rest (Node.mk none (a.freq + b.freq) a b)).length ≤ n := by
          rw [length_heappush]
          simp only [List.length_cons] at hle
          omega
        have hall2 : ∀ t ∈ heappush rest (Node.mk none (a.freq + b.freq) a b),
            proper t = true := by
          intro t ht
          rcases mem_heappush.mp ht with ht | rfl
          · exact hall t (by simp [ht])
          · exact hp
        obtain ⟨ih1, ih2, ih3, ih4⟩ := ih _ hlen2 hlen hall2
        refine ⟨ih1, ih2, ?_, ?_⟩
        · intro s
          rw [ih3 s]
          constructor
          · rintro ⟨t, ht, hs⟩
            rcases mem_heappush.mp ht with ht | rfl
            · exact ⟨t, by simp [ht], hs⟩
            · simp only [leafSyms, List.mem_append] at hs
              rcases hs with hs | hs
              · exact ⟨a, by simp, hs⟩
              · exact ⟨b, by simp, hs⟩
          · rintro ⟨t, ht, hs⟩
            simp only [List.mem_cons] at ht
            rcases ht with rfl | rfl | ht
            · exact ⟨Node.mk none (t.freq + b.freq) t b, mem_heappush.mpr (Or.inr rfl),
                by simp [leafSyms, hs]⟩
            · exact ⟨Node.mk none (a.freq + t.freq) a t, mem_heappush.mpr (Or.inr rfl),
                by simp [leafSyms, hs]⟩
            · exact ⟨t, mem_heappush.mpr (Or.inl ht), hs⟩
        · rw [ih4, sum_map_heappush]
          simp only [List.map_cons, List.sum_cons, leafSyms, List.length_append]
          omega

theorem build_tree_eq_mergeLoop {h : List Node} (h2 : 2 ≤ h.length) :
    build_tree h = mergeLoop h := by
  match h, h2 with
  | a :: b :: rest, _ => rfl

/-- Everything `build_tree` guarantees about the tree built from a frequency
map with at least two entries: shape, an internal root, the stored symbols,
and the leaf count. -/
theorem build_tree_spec (fm : List (Nat × Nat)) (h2 : 2 ≤ fm.length) :
    proper (build_tree (heap_from_freq fm)) = true ∧
    (build_tree (heap_from_freq fm)).sym = none ∧
    (∀ s, s ∈ leafSyms (build_tree (heap_from_freq fm)) ↔ ∃ p ∈ fm, s = p.1) ∧
    (leafSyms (build_tree (heap_from_freq fm))).length = fm.length := by
  have hlen : 2 ≤ (heap_from_freq fm).length := by rw [length_heap_from_freq]; exact h2
  rw [build_tree_eq_mergeLoop hlen]
  have hall : ∀ t ∈ heap_from_freq fm, proper t = true := by
    intro t ht
    obtain ⟨p, _, rfl⟩ := mem_heap_from_freq.mp ht
    simp [proper]
  obtain ⟨h1, hsym, h3, h4⟩ := mergeLoop_spec (heap_from_freq fm).length _ le_rfl hlen hall
  refine ⟨h1, hsym, ?_, ?_⟩
  · intro s
    rw [h3 s]
    constructor
    · rintro ⟨t, ht, hs⟩
      obtain ⟨p, hp, rfl⟩ := mem_heap_from_freq.mp ht
      simp only [leafSyms, List.mem_cons, List.not_mem_nil, or_false] at hs
      exact ⟨p, hp, hs⟩
    · rintro ⟨p, hp, rfl⟩
      exact ⟨Node.mk (some p.1) p.2 Node.nil Node.nil,
        mem_heap_from_freq.mpr ⟨p, hp, rfl⟩, by simp [leafSyms]⟩
  · rw [h4, sum_map_heap_from_freq]
    simp [leafSyms]

/-! Lemmas about serialization. -/

theorem serializeDfs_proper {t : Node} (hp : proper t = true) :
    serializeDfs t = some (ser t) := by
  induction t with
  | nil => cases hp
  | mk s f l r ihl ihr =>
    cases s with
    | some v => rfl
    | none =>
      simp only [proper, Bool.and_eq_true] at hp
      simp [serializeDfs, ser, ihl hp.1, ihr hp.2]

theorem serialize_proper {t : Node} (hp : proper t = true) :
    serialize t = some (ser t) := by
  cases t with
  | nil => cases hp
  | mk s f l r => exact serializeDfs_proper hp

theorem ser_ne_nil {t : Node} (ht : t ≠ Node.nil) : ser t ≠ [] := by
  cases t with
  | nil => exact absurd rfl ht
  | mk s f l r => cases s <;> simp [ser]

theorem ser_length_proper {t : Node} (hp : proper t = true) :
    (ser t).length + 1 = 3 * (leafSyms t).length := by
  induction t with
  | nil => cases hp
  | mk s f l r ihl ihr =>
    cases s with
    | some v => simp [ser, leafSyms]
    | none =>
      simp only [proper, Bool.and_eq_true] at hp
      have h1 := ihl hp.1
      have h2 := ihr hp.2
      simp only [ser, leafSyms, List.length_cons, List.length_append]
      omega

theorem isPure_zeroFreq {t : Node} (hp : proper t = true) :
    isPure (zeroFreq t) = true := by
  induction t with
  | nil => cases hp
  | mk s f l r ihl ihr =>
    cases s with
    | some v =>
      simp only [proper, Bool.and_eq_true, decide_eq_true_eq] at hp
      simp [zeroFreq, isPure, hp.1, hp.2]
    | none =>
      simp only [proper, Bool.and_eq_true] at hp
      simp [zeroFreq, isPure, ihl hp.1, ihr hp.2]

theorem ser_zeroFreq (t : Node) : ser (zeroFreq t) = ser t := by
  induction t with
  | nil => rfl
  | mk s f l r ihl ihr =>
    cases s with
    | some v => rfl
    | none => simp [zeroFreq, ser, ihl, ihr]

theorem zeroFreq_eq_nil {t : Node} : zeroFreq t = Node.nil ↔ t = Node.nil := by
  cases t <;> simp [zeroFreq]

theorem codeLands_zeroFreq : ∀ (c : List Bool) (t : Node),
    codeLands (zeroFreq t) c = codeLands t c := by
  intro c
  induction c with
  | nil => intro t; rfl
  | cons b rest ih =>
    intro t
    have hstep : (if b then (zeroFreq t).right else (zeroFreq t).left) =
        zeroFreq (if b then t.right else t.left) := by
      cases t <;> cases b <;> simp [zeroFreq, Node.left, Node.right]
    simp only [codeLands]
    rw [hstep]
    cases hc : (if b = true then t.right else t.left) with
    | nil => simp [zeroFreq]
    | mk s f l r =>
      cases s with
      | some v => simp [zeroFreq]
      | none =>
        simp only [zeroFreq]
        exact ih (Node.mk none f l r)

/-! Lemmas about the tree-blob parser. -/

theorem parseTreeF_consume : ∀ (f : Nat) (l : List Nat) (t : Node) (r : List Nat),
    parseTreeF f l = .ok (t, r) → r.length < l.length := by
  intro f
  induction f with
  | zero =>
    intro l t r hok
    cases l with
    | nil => simp [parseTreeF] at hok
    | cons x xs => simp [parseTreeF] at hok
  | succ f ih =>
    intro l t r hok
    cases l with
    | nil => simp [parseTreeF] at hok
    | cons x xs =>
      match x with
      | 1 =>
        cases xs with
        | nil => simp [parseTreeF] at hok
        | cons s rest2 =>
          simp only [parseTreeF, Except.ok.injEq, Prod.mk.injEq] at hok
          obtain ⟨-, rfl⟩ := hok
          simp only [List.length_cons]
          omega
      | 0 =>
        simp only [parseTreeF] at hok
        split at hok
        · cases hok
        · rename_i ln r1 hL
          split at hok
          · cases hok
          · rename_i rn r2 hR
            simp only [Except.ok.injEq, Prod.mk.injEq] at hok
            obtain ⟨-, rfl⟩ := hok
            have h1 := ih xs ln r1 hL
            have h2 := ih r1 rn r2 hR
            simp only [List.length_cons]
            omega
      | n + 2 => simp [parseTreeF] at hok

theorem parseTreeF_fuel_irrel : ∀ (f g : Nat) (l : List Nat),
    l.length ≤ f → l.length ≤ g → parseTreeF f l = parseTreeF g l := by
  intro f
  induction f with
  | zero =>
    intro g l hf hg
    have : l = [] := List.eq_nil_of_length_eq_zero (by omega)
    subst this
    cases g <;> rfl
  | succ f ih =>
    intro g l hf hg
    cases l with
    | nil => cases g <;> rfl
    | cons x xs =>
      cases g with
      | zero => simp at hg
      | succ g =>
        match x with
        | 1 => rfl
        | 0 =>
          simp only [List.length_cons] at hf hg
          have hrec1 : parseTreeF f xs = parseTreeF g xs := ih g xs (by omega) (by omega)
          simp only [parseTreeF, hrec1]
          split
          · rfl
          · rename_i ln r1 hL
            have hr1 : r1.length < xs.length := parseTreeF_consume g xs ln r1 hL
            have hrec2 : parseTreeF f r1 = parseTreeF g r1 := ih g r1 (by omega) (by omega)
            rw [hrec2]
        | n + 2 => rfl

theorem parseTreeF_complete : ∀ (t : Node), isPure t = true →
    ∀ (f : Nat) (rest : List Nat), (ser t ++ rest).length ≤ f →
      parseTreeF f (ser t ++ rest) = .ok (t, rest) := by
  intro t
  induction t with
  | nil => intro hp; cases hp
  | mk s w l r ihl ihr =>
    intro hp f rest hf
    cases s with
    | some v =>
      simp only [isPure, Bool.and_eq_true, decide_eq_true_eq] at hp
      obtain ⟨⟨rfl, rfl⟩, rfl⟩ := hp
      simp only [ser, List.cons_append, List.nil_append]
      cases f with
      | zero =>
        exfalso
        simp only [ser, List.cons_append, List.length_cons] at hf
        omega
      | succ fu => rfl
    | none =>
      simp only [isPure, Bool.and_eq_true, decide_eq_true_eq] at hp
      obtain ⟨⟨rfl, hl⟩, hr⟩ := hp
      simp only [ser, List.cons_append, List.append_assoc]
      cases f with
      | zero =>
        exfalso
        simp only [ser, List.cons_append, List.length_cons] at hf
        omega
      | succ fu =>
        have hfu : (ser (Node.mk none 0 l r) ++ rest).length ≤ fu + 1 := hf
        simp only [ser, List.cons_append, List.length_cons, List.length_append,
          List.append_assoc] at hfu
        have hlen : (ser l ++ (ser r ++ rest)).length ≤ fu := by
          simp only [List.length_append]
          omega
        have h1 : parseTreeF fu (ser l ++ (ser r ++ rest)) = .ok (l, ser r ++ rest) :=
          ihl hl fu (ser r ++ rest) hlen
        have hlen2 : (ser r ++ rest).length ≤ fu := by
          simp only [List.length_append] at hlen ⊢
          omega
        have h2 : parseTreeF fu (ser r ++ rest) = .ok (r, rest) :=
          ihr hr fu rest hlen2
        simp [parseTreeF, h1, h2]

theorem parseTreeF_sound : ∀ (f : Nat) (l : List Nat) (t : Node) (r : List Nat),
    parseTreeF f l = .ok (t, r) → isPure t = true ∧ ser t ++ r = l := by
  intro f
  induction f with
  | zero =>
    intro l t r hok
    cases l with
    | nil => simp [parseTreeF] at hok
    | cons x xs => simp [parseTreeF] at hok
  | succ f ih =>
    intro l t r hok
    cases l with
    | nil => simp [parseTreeF] at hok
    | cons x xs =>
      match x with
      | 1 =>
        cases xs with
        | nil => simp [parseTreeF] at hok
        | cons s rest2 =>
          simp only [parseTreeF, Except.ok.injEq, Prod.mk.injEq] at hok
          obtain ⟨rfl, rfl⟩ := hok
          exact ⟨rfl, rfl⟩
      | 0 =>
        simp only [parseTreeF] at hok
        split at hok
        · cases hok
        · rename_i ln r1 hL
          split at hok
          · cases hok
          · rename_i rn r2 hR
            simp only [Except.ok.injEq, Prod.mk.injEq] at hok
            obtain ⟨rfl, rfl⟩ := hok
            obtain ⟨hpl, hsl⟩ := ih xs ln r1 hL
            obtain ⟨hpr, hsr⟩ := ih r1 rn r2 hR
            refine ⟨by simp [isPure, hpl, hpr], ?_⟩
            simp only [ser, List.cons_append, List.append_assoc, hsr, hsl]
      | n + 2 => simp [parseTreeF] at hok

theorem deserialize_nil : deserialize [] = .ok Node.nil := rfl

theorem isPure_ne_nil {t : Node} (hp : isPure t = true) : t ≠ Node.nil := by
  cases t with
  | nil => cases hp
  | mk s w l r => exact fun h => Node.noConfusion h

theorem deserialize_ser {t : Node} (hp : isPure t = true) :
    deserialize (ser t) = .ok t := by
  have hne : ser t ≠ [] := ser_ne_nil (isPure_ne_nil hp)
  have hcomp := parseTreeF_complete t hp (ser t).length [] (by simp)
  simp only [List.append_nil] at hcomp
  simp [deserialize, hne, hcomp]

theorem deserialize_sound {blob : List Nat} {t : Node}
    (hne : blob ≠ []) (hok : deserialize blob = .ok t) :
    isPure t = true ∧ ser t = blob := by
  simp only [deserialize, hne, if_false] at hok
  cases hP : parseTreeF blob.length blob with
  | error e => rw [hP] at hok; cases hok
  | ok p =>
    obtain ⟨root, rest⟩ := p
    rw [hP] at hok
    by_cases hrest : rest = []
    · subst hrest
      simp only [if_true] at hok
      cases hok
      obtain ⟨h1, h2⟩ := parseTreeF_sound blob.length blob t [] hP
      exact ⟨h1, by simpa using h2⟩
    · simp only [hrest, if_false] at hok
      cases hok

/-- Success characterization of `deserialize`: it succeeds exactly on the
empty blob and on complete well-formed encodings. -/
theorem deserialize_ok_characterization (blob : List Nat) :
    (∃ t, deserialize blob = .ok t) ↔
      blob = [] ∨ ∃ t, isPure t = true ∧ ser t = blob := by
  constructor
  · rintro ⟨t, ht⟩
    by_cases hb : blob = []
    · exact Or.inl hb
    · exact Or.inr ⟨t, deserialize_sound hb ht⟩
  · rintro (rfl | ⟨t, hp, rfl⟩)
    · exact ⟨Node.nil, deserialize_nil⟩
    · exact ⟨t, deserialize_ser hp⟩

/-! Lemmas about the code table. -/

theorem walk_append : ∀ (t : Node) (pre : List Bool) (acc : List (Nat × List Bool)),
    walk t pre acc = walk t pre [] ++ acc := by
  intro t
  induction t with
  | nil => intro pre acc; rfl
  | mk s w l r ihl ihr =>
    intro pre acc
    cases s with
    | some v => rfl
    | none =>
      simp only [walk]
      by_cases hl : l = Node.nil <;> by_cases hr : r = Node.nil
      · simp [hl, hr]
      · rw [if_pos hl, if_pos hl, if_neg hr, if_neg hr, ihr (pre ++ [true]) acc]
      · rw [if_neg hl, if_neg hl, if_pos hr, if_pos hr, ihl (pre ++ [false]) acc]
      · rw [if_neg hl, if_neg hl, if_neg hr, if_neg hr,
          ihr (pre ++ [true]) (walk l (pre ++ [false]) acc),
          ihl (pre ++ [false]) acc,
          ihr (pre ++ [true]) (walk l (pre ++ [false]) []),
          List.append_assoc]

theorem walkRel_shift : ∀ (t : Node) (pre : List Bool), pre ≠ [] →
    walk t pre [] = (walkRel t).map (fun p => (p.1, pre ++ p.2)) := by
  intro t
  induction t with
  | nil => intro pre _; rfl
  | mk s w l r ihl ihr =>
    intro pre hpre
    cases s with
    | some v => simp [walk, walkRel, hpre]
    | none =>
      simp only [walk, walkRel, List.map_append]
      by_cases hl : l = Node.nil <;> by_cases hr : r = Node.nil
      · simp [hl, hr]
      · rw [if_pos hl, if_pos hl, if_neg hr, if_neg hr,
          ihr (pre ++ [true]) (by simp), List.map_map]
        simp [Function.comp_def]
      · rw [if_neg hl, if_neg hl, if_pos hr, if_pos hr,
          ihl (pre ++ [false]) (by simp), List.map_map]
        simp [Function.comp_def]
      · rw [if_neg hl, if_neg hl, if_neg hr, if_neg hr,
          walk_append r (pre ++ [true]) (walk l (pre ++ [false]) []),
          ihr (pre ++ [true]) (by simp), ihl (pre ++ [false]) (by simp),
          List.map_map, List.map_map]
        simp [Function.comp_def]

/-- For an internal root the code table is exactly the relative code table:
the empty-path special case of `walk` can never fire. -/
theorem make_codes_internal (w : Nat) (l r : Node) :
    make_codes (Node.mk none w l r) = walkRel (Node.mk none w l r) := by
  show walk (Node.mk none w l r) [] [] = _
  simp only [walk, walkRel, List.map_append, List.nil_append]
  by_cases hl : l = Node.nil <;> by_cases hr : r = Node.nil
  · simp [hl, hr]
  · rw [if_pos hl, if_pos hl, if_neg hr, if_neg hr, walkRel_shift r [true] (by simp)]
    simp
  · rw [if_neg hl, if_neg hl, if_pos hr, if_pos hr, walkRel_shift l [false] (by simp)]
    simp
  · rw [if_neg hl, if_neg hl, if_neg hr, if_neg hr,
      walk_append r [true] (walk l [false] []),
      walkRel_shift r [true] (by simp), walkRel_shift l [false] (by simp)]
    simp

theorem walkRel_internal_code_ne_nil {w : Nat} {l r : Node} {s : Nat} {c : List Bool}
    (hmem : (s, c) ∈ walkRel (Node.mk none w l r)) : c ≠ [] := by
  simp only [walkRel, List.mem_append] at hmem
  rcases hmem with h | h
  · by_cases hr : r = Node.nil
    · simp [hr] at h
    · simp only [if_neg hr, List.mem_map] at h
      obtain ⟨p, -, hp⟩ := h
      cases hp
      simp
  · by_cases hl : l = Node.nil
    · simp [hl] at h
    · simp only [if_neg hl, List.mem_map] at h
      obtain ⟨p, -, hp⟩ := h
      cases hp
      simp

theorem codeLands_walkRel : ∀ (t : Node), proper t = true → t.sym = none →
    ∀ (s : Nat) (c : List Bool), (s, c) ∈ walkRel t → codeLands t c = some s := by
  intro t
  induction t with
  | nil => intro hp; cases hp
  | mk sy w l r ihl ihr =>
    intro hp hsym s c hmem
    cases sy with
    | some v => cases hsym
    | none =>
      simp only [proper, Bool.and_eq_true] at hp
      simp only [walkRel, List.mem_append] at hmem
      rcases hmem with h | h
      · by_cases hr : r = Node.nil
        · simp [hr] at h
        · simp only [if_neg hr, List.mem_map] at h
          obtain ⟨⟨s', q⟩, hq, hpq⟩ := h
          cases hpq
          cases r with
          | nil => exact absurd rfl hr
          | mk rs rw rl rr =>
            cases rs with
            | some v =>
              simp only [walkRel, List.mem_cons, List.not_mem_nil, or_false,
                Prod.mk.injEq] at hq
              obtain ⟨rfl, rfl⟩ := hq
              simp [codeLands, Node.right]
            | none =>
              have hq2 := ihr hp.2 rfl s' q hq
              simpa [codeLands, Node.right] using hq2
      · by_cases hl : l = Node.nil
        · simp [hl] at h
        · simp only [if_neg hl, List.mem_map] at h
          obtain ⟨⟨s', q⟩, hq, hpq⟩ := h
          cases hpq
          cases l with
          | nil => exact absurd rfl hl
          | mk ls lw ll lr =>
            cases ls with
            | some v =>
              simp only [walkRel, List.mem_cons, List.not_mem_nil, or_false,
                Prod.mk.injEq] at hq
              obtain ⟨rfl, rfl⟩ := hq
              simp [codeLands, Node.left]
            | none =>
              have hq2 := ihl hp.1 rfl s' q hq
              simpa [codeLands, Node.left] using hq2

theorem walkRel_pairwise : ∀ (t : Node) (s1 : Nat) (c1 : List Bool) (s2 : Nat) (c2 : List Bool),
    (s1, c1) ∈ walkRel t → (s2, c2) ∈ walkRel t → s1 ≠ s2 → ¬ c1 <+: c2 := by
  intro t
  induction t with
  | nil =>
    intro s1 c1 s2 c2 h1
    simp [walkRel] at h1
  | mk sy w l r ihl ihr =>
    intro s1 c1 s2 c2 h1 h2 hne
    cases sy with
    | some v =>
      simp only [walkRel, List.mem_cons, List.not_mem_nil, or_false, Prod.mk.injEq] at h1 h2
      exact absurd (h1.1.trans h2.1.symm) hne
    | none =>
      simp only [walkRel, List.mem_append] at h1 h2
      have extract : ∀ (u : Node) (b : Bool) (s : Nat) (c : List Bool),
          (s, c) ∈ (if u = Node.nil then [] else
            (walkRel u).map (fun p => (p.1, b :: p.2))) →
          ∃ q, c = b :: q ∧ (s, q) ∈ walkRel u := by
        intro u b s c h
        by_cases hu : u = Node.nil
        · simp [hu] at h
        · simp only [if_neg hu, List.mem_map] at h
          obtain ⟨⟨s', q⟩, hq, hpq⟩ := h
          cases hpq
          exact ⟨q, rfl, hq⟩
      rcases h1 with h1 | h1 <;> rcases h2 with h2 | h2
      · obtain ⟨q1, rfl, hq1⟩ := extract r true s1 c1 h1
        obtain ⟨q2, rfl, hq2⟩ := extract r true s2 c2 h2
        intro hpre
        rw [List.cons_prefix_cons] at hpre
        exact ihr s1 q1 s2 q2 hq1 hq2 hne hpre.2
      · obtain ⟨q1, rfl, hq1⟩ := extract r true s1 c1 h1
        obtain ⟨q2, rfl, hq2⟩ := extract l false s2 c2 h2
        intro hpre
        rw [List.cons_prefix_cons] at hpre
        cases hpre.1
      · obtain ⟨q1, rfl, hq1⟩ := extract l false s1 c1 h1
        obtain ⟨q2, rfl, hq2⟩ := extract r true s2 c2 h2
        intro hpre
        rw [List.cons_prefix_cons] at hpre
        cases hpre.1
      · obtain ⟨q1, rfl, hq1⟩ := extract l false s1 c1 h1
        obtain ⟨q2, rfl, hq2⟩ := extract l false s2 c2 h2
        intro hpre
        rw [List.cons_prefix_cons] at hpre
        exact ihl s1 q1 s2 q2 hq1 hq2 hne hpre.2

theorem make_codes_leaf (v : Nat) (w : Nat) (l r : Node) :
    make_codes (Node.mk (some v) w l r) = [(v, [false])] := rfl

theorem make_codes_code_ne_nil : ∀ (t : Node) (s : Nat) (c : List Bool),
    (s, c) ∈ make_codes t → c ≠ [] := by
  intro t s c hmem
  cases t with
  | nil => simp [make_codes] at hmem
  | mk sy w l r =>
    cases sy with
    | some v =>
      rw [make_codes_leaf] at hmem
      simp only [List.mem_cons, List.not_mem_nil, or_false, Prod.mk.injEq] at hmem
      simp [hmem.2]
    | none =>
      rw [make_codes_internal] at hmem
      exact walkRel_internal_code_ne_nil hmem

theorem make_codes_antichain : ∀ (t : Node) (s1 : Nat) (c1 : List Bool) (s2 : Nat)
    (c2 : List Bool), (s1, c1) ∈ make_codes t → (s2, c2) ∈ make_codes t →
    s1 ≠ s2 → ¬ c1 <+: c2 := by
  intro t s1 c1 s2 c2 h1 h2 hne
  cases t with
  | nil => simp [make_codes] at h1
  | mk sy w l r =>
    cases sy with
    | some v =>
      rw [make_codes_leaf] at h1 h2
      simp only [List.mem_cons, List.not_mem_nil, or_false, Prod.mk.injEq] at h1 h2
      exact absurd (h1.1.trans h2.1.symm) hne
    | none =>
      rw [make_codes_internal] at h1 h2
      exact walkRel_pairwise _ s1 c1 s2 c2 h1 h2 hne

theorem lookup_mem {l : List (Nat × List Bool)} {a : Nat} {b : List Bool} :
    l.lookup a = some b → (a, b) ∈ l := by
  induction l with
  | nil => intro h; cases h
  | cons p ps ih =>
    intro h
    obtain ⟨k, v⟩ := p
    rw [List.lookup] at h
    split at h
    · rename_i hbeq
      cases h
      have hk : a = k := by simpa using hbeq
      subst hk
      simp
    · exact List.mem_cons_of_mem _ (ih h)

/-! Decoding lemmas. -/

theorem decodeFrom_code (root : Node) : ∀ (c : List Bool) (t' : Node) (s : Nat)
    (more : List Bool), codeLands t' c = some s →
    decodeFrom root t' (c ++ more) =
      Except.map (fun out => s :: out) (decodeFrom root root more) := by
  intro c
  induction c with
  | nil =>
    intro t' s more h
    cases h
  | cons b rest ih =>
    intro t' s more h
    simp only [codeLands] at h
    simp only [List.cons_append, decodeFrom]
    cases hc : (if b then t'.right else t'.left) with
    | nil => rw [hc] at h; cases h
    | mk cs cw cl cr =>
      rw [hc] at h
      cases cs with
      | some v =>
        by_cases hrest : rest = []
        · subst hrest
          simp only [ite_true, if_pos, Option.some.injEq] at h
          have hv : v = s := by simpa using h
          subst hv
          rfl
        · simp [if_neg hrest] at h
      | none =>
        exact ih (Node.mk none cw cl cr) s more h

theorem decodeFrom_encode (t' : Node) (tbl : List (Nat × List Bool))
    (hcl : ∀ (s : Nat) (c : List Bool), tbl.lookup s = some c → codeLands t' c = some s) :
    ∀ (data : List Nat) (bits : List Bool), encode_bytes data tbl = .ok bits →
      decodeFrom t' t' bits = .ok data := by
  intro data
  induction data with
  | nil =>
    intro bits henc
    cases henc
    rfl
  | cons b rest ih =>
    intro bits henc
    simp only [encode_bytes] at henc
    split at henc
    · cases henc
    · rename_i cb hlook
      split at henc
      · cases henc
      · rename_i tail htail
        cases henc
        rw [decodeFrom_code t' cb t' b tail (hcl b cb hlook), ih tail htail]
        rfl

/-! Lemmas about bit packing. -/

theorem byteBits_bitsVal : ∀ (c : List Bool), c.length = 8 → byteBits (bitsVal c) = c := by
  intro c h
  rcases c with _ | ⟨b0, _ | ⟨b1, _ | ⟨b2, _ | ⟨b3, _ | ⟨b4, _ | ⟨b5, _ | ⟨b6, _ | ⟨b7, rest⟩⟩⟩⟩⟩⟩⟩⟩ <;>
    simp only [List.length_nil, List.length_cons] at h
  · omega
  · omega
  · omega
  · omega
  · omega
  · omega
  · omega
  · omega
  · have hrest : rest = [] := by
      have : rest.length = 0 := by omega
      exact List.eq_nil_of_length_eq_zero this
    subst hrest
    revert b0 b1 b2 b3 b4 b5 b6 b7
    decide

theorem bits_to_bytesF_fuel_irrel : ∀ (f g : Nat) (bits : List Bool),
    bits.length ≤ f → bits.length ≤ g → bits_to_bytesF f bits = bits_to_bytesF g bits := by
  intro f
  induction f with
  | zero =>
    intro g bits hf _
    have : bits = [] := List.eq_nil_of_length_eq_zero (by omega)
    subst this
    cases g <;> rfl
  | succ f ih =>
    intro g bits hf hg
    cases bits with
    | nil => cases g <;> rfl
    | cons b bs =>
      cases g with
      | zero => simp at hg
      | succ g =>
        simp only [bits_to_bytesF]
        congr 1
        apply ih
        · simp only [List.length_drop, List.length_cons] at hf ⊢
          omega
        · simp only [List.length_drop, List.length_cons] at hg ⊢
          omega

theorem bits_to_bytes_step {bits : List Bool} (h : bits ≠ []) :
    bits_to_bytes bits = bitsVal (bits.take 8) :: bits_to_bytes (bits.drop 8) := by
  cases bits with
  | nil => exact absurd rfl h
  | cons b bs =>
    show bits_to_bytesF (bs.length + 1) (b :: bs) = _
    simp only [bits_to_bytesF]
    congr 1
    apply bits_to_bytesF_fuel_irrel
    · simp only [List.length_drop, List.length_cons]
      omega
    · exact le_rfl

theorem bytes_to_bits_cons (x : Nat) (xs : List Nat) :
    bytes_to_bits (x :: xs) = byteBits x ++ bytes_to_bits xs := by
  simp [bytes_to_bits]

theorem bytes_bits_roundtrip : ∀ (n : Nat) (bits : List Bool), bits.length ≤ n →
    bits.length % 8 = 0 → bytes_to_bits (bits_to_bytes bits) = bits := by
  intro n
  induction n with
  | zero =>
    intro bits hle _
    have : bits = [] := List.eq_nil_of_length_eq_zero (by omega)
    subst this
    rfl
  | succ n ih =>
    intro bits hle hmod
    by_cases hb : bits = []
    · subst hb; rfl
    · have hpos : 0 < bits.length := List.length_pos.mpr hb
      have h8 : 8 ≤ bits.length := by omega
      rw [bits_to_bytes_step hb, bytes_to_bits_cons,
        byteBits_bitsVal _ (by simp only [List.length_take]; omega),
        ih (bits.drop 8) (by simp only [List.length_drop]; omega)
          (by simp only [List.length_drop]; omega),
        List.take_append_drop]

theorem pad_bits_fst {bits : List Bool} (h : bits ≠ []) :
    (pad_bits bits).1 = bits ++ List.replicate ((8 - bits.length % 8) % 8) false := by
  have : bits.length ≠ 0 := fun hl => h (List.eq_nil_of_length_eq_zero hl)
  simp [pad_bits, this]

theorem pad_bits_snd {bits : List Bool} (h : bits ≠ []) :
    (pad_bits bits).2 = (8 - bits.length % 8) % 8 := by
  have : bits.length ≠ 0 := fun hl => h (List.eq_nil_of_length_eq_zero hl)
  simp [pad_bits, this]

theorem pad_bits_mod {bits : List Bool} (h : bits ≠ []) :
    (pad_bits bits).1.length % 8 = 0 := by
  rw [pad_bits_fst h]
  simp only [List.length_append, List.length_replicate]
  omega

theorem pad_bits_le {bits : List Bool} (h : bits ≠ []) : (pad_bits bits).2 < 8 := by
  rw [pad_bits_snd h]
  omega

theorem beU32_roundtrip {n : Nat} (h : n < 4294967296) :
    beU32val (beU32enc n) = n := by
  simp only [beU32enc, beU32val, List.foldl_cons, List.foldl_nil]
  omega

theorem beU32enc_length (n : Nat) : (beU32enc n).length = 4 := rfl

/-! Assorted helper lemmas for the round-trip proof and the claims. -/

theorem proper_ne_nil {t : Node} (hp : proper t = true) : t ≠ Node.nil := by
  cases t with
  | nil => cases hp
  | mk s w l r => exact fun h => Node.noConfusion h

theorem dataModel_proper {t : Node} (hdm : dataModel t = true) : proper t = true := by
  induction t with
  | nil => cases hdm
  | mk s w l r ihl ihr =>
    cases s with
    | some v =>
      simp only [dataModel, Bool.and_eq_true] at hdm
      simp [proper, hdm.1.2, hdm.2]
    | none =>
      simp only [dataModel, Bool.and_eq_true] at hdm
      simp [proper, ihl hdm.1, ihr hdm.2]

theorem sameShapeSym_zeroFreq (t : Node) : sameShapeSym t (zeroFreq t) = true := by
  induction t with
  | nil => rfl
  | mk s w l r ihl ihr => simp [zeroFreq, sameShapeSym, ihl, ihr]

theorem isPure_internalFull {t : Node} (hp : isPure t = true) : internalFull t = true := by
  induction t with
  | nil => cases hp
  | mk s w l r ihl ihr =>
    cases s with
    | some v =>
      simp only [isPure, Bool.and_eq_true, decide_eq_true_eq] at hp
      simp [internalFull, hp.1.2, hp.2, Huff.internalFull]
    | none =>
      simp only [isPure, Bool.and_eq_true] at hp
      have hl := ihl hp.1.2
      have hr := ihr hp.2
      simp [internalFull, hl, hr, isPure_ne_nil hp.1.2, isPure_ne_nil hp.2]

theorem nodup_bounded_length {l : List Nat} (hnd : l.Nodup) (hb : ∀ x ∈ l, x < 256) :
    l.length ≤ 256 := by
  have hsub : l.toFinset ⊆ Finset.range 256 := by
    intro x hx
    rw [List.mem_toFinset] at hx
    rw [Finset.mem_range]
    exact hb x hx
  have := Finset.card_le_card hsub
  rw [List.toFinset_card_of_nodup hnd, Finset.card_range] at this
  exact this

theorem serializeDfs_right_nil (w : Nat) (u : Node) :
    serializeDfs (Node.mk none w u Node.nil) = none := by
  cases h : serializeDfs u <;> simp [serializeDfs, h]

theorem encode_bytes_ne_nil {data : List Nat} {tbl : List (Nat × List Bool)}
    {bits : List Bool} (hd : data ≠ [])
    (hcodes : ∀ s c, (s, c) ∈ tbl → c ≠ [])
    (henc : encode_bytes data tbl = .ok bits) : bits ≠ [] := by
  cases data with
  | nil => exact absurd rfl hd
  | cons b rest =>
    simp only [encode_bytes] at henc
    split at henc
    · cases henc
    · rename_i cb hlook
      split at henc
      · cases henc
      · rename_i tail htail
        cases henc
        have hcb : cb ≠ [] := hcodes b cb (lookup_mem hlook)
        simp [hcb]

theorem decodeFrom_total (root : Node) (hroot : internalFull root = true)
    (hrsym : root.sym = none) (hrnil : root ≠ Node.nil) :
    ∀ (bits : List Bool) (cur : Node), internalFull cur = true → cur.sym = none →
      cur ≠ Node.nil → ∃ out, decodeFrom root cur bits = .ok out := by
  intro bits
  induction bits with
  | nil => intro cur _ _ _; exact ⟨[], rfl⟩
  | cons b rest ih =>
    intro cur hfull hsym hnil
    cases cur with
    | nil => exact absurd rfl hnil
    | mk cs cw cl cr =>
      cases cs with
      | some v => cases hsym
      | none =>
        simp only [internalFull, Bool.and_eq_true, decide_eq_true_eq] at hfull
        obtain ⟨⟨⟨hlne, hrne⟩, hlf⟩, hrf⟩ := hfull
        simp only [decodeFrom]
        cases hc : (if b then (Node.mk none cw cl cr).right
            else (Node.mk none cw cl cr).left) with
        | nil =>
          exfalso
          cases b
          · rw [if_neg (by simp)] at hc
            exact hlne (by simpa [Node.left] using hc)
          · rw [if_pos rfl] at hc
            exact hrne (by simpa [Node.right] using hc)
        | mk ds dw dl dr =>
          have hdfull : internalFull (Node.mk ds dw dl dr) = true := by
            cases b
            · rw [if_neg (by simp)] at hc
              simp only [Node.left] at hc
              exact hc ▸ hlf
            · rw [if_pos rfl] at hc
              simp only [Node.right] at hc
              exact hc ▸ hrf
          cases ds with
          | some v =>
            obtain ⟨out, hout⟩ := ih root hroot hrsym hrnil
            exact ⟨v :: out, by rw [hout]; rfl⟩
          | none =>
            exact ih (Node.mk none dw dl dr) hdfull rfl (fun h => Node.noConfusion h)

theorem compress_file_normal_eq (src : String) (raw : List Nat)
    (h1 : skipHuff src raw = false) (h2 : skipExt src = false) :
    compress_file src raw = compress_normal raw := by
  simp [compress_file, h1, h2]

/-! The claims. -/

/-- C5: if the source bytes begin with the magic marker or the cleaned
source name ends in `.huff`, the compression call returns with the skipped
flag set and an explanatory note, and never opens the destination (its
write list is empty). -/
theorem magic_or_huff_skip_writes_nothing (src : String) (raw : List Nat)
    (h : raw.take 4 = MAGIC ∨ pyEndsWith (pyLower (pyStrip src)) ".huff" = true) :
    ∃ res, compress_file src raw = .ok res ∧ res.writes = [] ∧
      res.stats.skipped = true ∧ res.stats.note.isSome = true := by
  have hs : skipHuff src raw = true := by
    rcases h with h | h
    · simp [skipHuff, h]
    · simp [skipHuff, h]
  refine ⟨{ root := Node.nil, writes := [],
            stats := { original_bytes := raw.length, compressed_bytes := raw.length,
                       unique_symbols := 0, pad_count := none, compression_ratio := none,
                       space_saved_percent := none, skipped := true,
                       note := some "Input file is already in .huff format (double-compression prevented)." } },
    ?_, rfl, rfl, rfl⟩
  simp [compress_file, hs]

theorem magic_or_huff_skip_writes_nothing_witness :
    ([72, 85, 70, 70, 9].take 4 = MAGIC) ∧
    pyEndsWith (pyLower (pyStrip "x.huff")) ".huff" = true ∧
    (∃ res, compress_file "y.txt" [72, 85, 70, 70, 9] = .ok res ∧ res.writes = [] ∧
      res.stats.skipped = true ∧ res.stats.note.isSome = true) ∧
    (∃ res, compress_file "x.huff" [1, 2, 3] = .ok res ∧ res.writes = [] ∧
      res.stats.skipped = true ∧ res.stats.note.isSome = true) :=
  ⟨by decide, by decide,
   magic_or_huff_skip_writes_nothing "y.txt" [72, 85, 70, 70, 9] (Or.inl (by decide)),
   magic_or_huff_skip_writes_nothing "x.huff" [1, 2, 3] (Or.inr (by decide))⟩

/-- C4: on the normal compression path, when the assembled container
(magic + length field + tree blob + padding byte + payload) is at least as
large as the original, the final destination content is the original bytes
verbatim (the container written first is overwritten by the copy) and the
statistics report ratio 1, percent saved 0, and the skipped flag. -/
theorem would_not_shrink_copies_original (src : String) (raw : List Nat)
    (root : Node) (freq : List (Nat × Nat)) (tree_blob : List Nat) (pad_count : Nat)
    (compressed : List Nat)
    (h1 : skipHuff src raw = false) (h2 : skipExt src = false)
    (hpack : huffman_pack raw = .ok (root, freq, tree_blob, pad_count, compressed))
    (hge : 4 + 4 + tree_blob.length + 1 + compressed.length ≥ raw.length) :
    ∃ res, compress_file src raw = .ok res ∧
      res.writes.getLast? = some raw ∧
      res.stats.compression_ratio = some 1 ∧
      res.stats.space_saved_percent = some 0 ∧
      res.stats.skipped = true := by
  rw [compress_file_normal_eq src raw h1 h2]
  refine ⟨{ root := Node.nil,
            writes := [MAGIC ++ beU32enc tree_blob.length ++ tree_blob ++ [pad_count] ++ compressed,
                       raw],
            stats := { original_bytes := raw.length, compressed_bytes := raw.length,
                       unique_symbols := freq.length, pad_count := some pad_count,
                       compression_ratio := some 1, space_saved_percent := some 0,
                       skipped := true,
                       note := some "The uploaded file appears to be already compressed; compression cannot reduce its size." } },
    ?_, rfl, rfl, rfl, rfl⟩
  simp [compress_normal, hpack, hge]

theorem would_not_shrink_copies_original_witness :
    huffman_pack [97, 98] =
      .ok (Node.mk none 2 (Node.mk (some 97) 1 Node.nil Node.nil)
             (Node.mk (some 98) 1 Node.nil Node.nil),
           [(97, 1), (98, 1)], [0, 1, 97, 1, 98], 6, [64]) ∧
    (∃ res, compress_file "plain.txt" [97, 98] = .ok res ∧
      res.writes.getLast? = some [97, 98] ∧
      res.stats.compression_ratio = some 1 ∧
      res.stats.space_saved_percent = some 0 ∧
      res.stats.skipped = true) :=
  ⟨by decide,
   would_not_shrink_copies_original "plain.txt" [97, 98]
     (Node.mk none 2 (Node.mk (some 97) 1 Node.nil Node.nil)
       (Node.mk (some 98) 1 Node.nil Node.nil))
     [(97, 1), (98, 1)] [0, 1, 97, 1, 98] 6 [64]
     (by decide) (by decide) (by decide) (by decide)⟩

/-- C3 counterexample: compressing zero bytes does NOT leave a container in
the destination.  The 9-byte container is written first, but the
would-not-shrink check (9 >= 0) then copies the empty source over it, so
the final destination content is empty, the call reports skipped, and
decompressing the final destination content fails. -/
theorem empty_input_final_destination_empty :
    compressWrites "data.bin" [] = some [[72, 85, 70, 70, 0, 0, 0, 0, 0], []] ∧
    compressSkipped "data.bin" [] = some true ∧
    exceptOk (decompress_file []) = false := by decide

/-- C3 amended: compressing zero bytes first writes the 9-byte container
(magic, tree length 0, padding count 0, no payload) - and decompressing
that container does yield zero bytes - but the would-not-shrink check then
overwrites the destination with a copy of the empty source, so the final
destination is empty and the call reports skipped. -/
theorem empty_input_container_written_then_overwritten (src : String)
    (h1 : skipHuff src [] = false) (h2 : skipExt src = false) :
    (∃ res, compress_file src [] = .ok res ∧
      res.writes = [[72, 85, 70, 70, 0, 0, 0, 0, 0], []] ∧
      res.writes.getLast? = some [] ∧ res.stats.skipped = true) ∧
    decompress_file [72, 85, 70, 70, 0, 0, 0, 0, 0] = .ok [] := by
  have hc : compress_file src [] = compress_normal [] := compress_file_normal_eq src [] h1 h2
  have hcn : compress_normal [] =
      .ok { root := Node.nil, writes := [[72, 85, 70, 70, 0, 0, 0, 0, 0], []],
            stats := { original_bytes := 0, compressed_bytes := 0, unique_symbols := 0,
                       pad_count := some 0, compression_ratio := some 1,
                       space_saved_percent := some 0, skipped := true,
                       note := some "The uploaded file appears to be already compressed; compression cannot reduce its size." } } := by
    decide
  exact ⟨⟨_, hc.trans hcn, rfl, rfl, rfl⟩, by decide⟩

theorem empty_input_container_written_then_overwritten_witness :
    skipHuff "data.bin" [] = false ∧ skipExt "data.bin" = false ∧
    ((∃ res, compress_file "data.bin" [] = .ok res ∧
      res.writes = [[72, 85, 70, 70, 0, 0, 0, 0, 0], []] ∧
      res.writes.getLast? = some [] ∧ res.stats.skipped = true) ∧
    decompress_file [72, 85, 70, 70, 0, 0, 0, 0, 0] = .ok []) :=
  ⟨by decide, by decide,
   empty_input_container_written_then_overwritten "data.bin" (by decide) (by decide)⟩

/-- C2: for an input of N repetitions of one byte, the tree builder does
wrap the lone leaf under one synthetic internal node (with the leaf on the
left and `None` on the right) and the code table assigns the code "0" to
that byte - but the compressed output cannot round-trip, because
`serialize` recurses into the wrapper's `None` right child and crashes
(Python `AttributeError`), so compression raises instead of producing a
container.  Shown at N = 1 and N = 100. -/
theorem single_symbol_wrap_code_and_serialize_crash :
    build_tree (heap_from_freq (build_freq_map [97])) =
      Node.mk none 1 (Node.mk (some 97) 1 Node.nil Node.nil) Node.nil ∧
    make_codes (build_tree (heap_from_freq (build_freq_map [97]))) = [(97, [false])] ∧
    compress_file "single.txt" [97] = .error CErr.attrError ∧
    compress_file "single.txt" (List.replicate 100 97) = .error CErr.attrError := by
  decide

/-- C6: the container-parsing stage of decompression fails exactly when
the input is shorter than 9 bytes, or its first 4 bytes are not the magic
marker, or the declared big-endian 32-bit tree length plus the 9 fixed
header bytes exceeds the file length; otherwise it extracts the tree blob,
the padding byte and the payload at the fixed offsets derived from the
declared tree length.  A parse failure is returned by `decompress_file`
unchanged (the error kinds are `DErr.tooSmall`, `DErr.badMagic`,
`DErr.badTreeLen`). -/
theorem parse_container_error_characterization (raw : List Nat) :
    ((∃ v, parse_container raw = .ok v) ↔
      ¬(raw.length < 9 ∨ raw.take 4 ≠ MAGIC ∨
        9 + beU32val ((raw.drop 4).take 4) > raw.length)) ∧
    (∀ tl blob pad payload, parse_container raw = .ok (tl, blob, pad, payload) →
      tl = beU32val ((raw.drop 4).take 4) ∧ blob = (raw.drop 8).take tl ∧
      pad = (raw.drop (8 + tl)).headD 0 ∧ payload = raw.drop (9 + tl)) ∧
    (∀ e, parse_container raw = .error e → decompress_file raw = .error e) := by
  refine ⟨?_, ?_, ?_⟩
  · constructor
    · rintro ⟨v, hv⟩ hbad
      simp only [parse_container] at hv
      split at hv
      · cases hv
      · split at hv
        · cases hv
        · split at hv
          · cases hv
          · rename_i h1 h2 h3
            rcases hbad with hb | hb | hb
            · exact h1 hb
            · exact h2 hb
            · exact h3 (by omega)
    · intro hgood
      rw [not_or, not_or] at hgood
      obtain ⟨g1, g2, g3⟩ := hgood
      refine ⟨(beU32val ((raw.drop 4).take 4),
        (raw.drop 8).take (beU32val ((raw.drop 4).take 4)),
        (raw.drop (8 + beU32val ((raw.drop 4).take 4))).headD 0,
        raw.drop (9 + beU32val ((raw.drop 4).take 4))), ?_⟩
      simp only [parse_container]
      rw [if_neg g1, if_neg g2,
        if_neg (by omega : ¬(8 + beU32val ((raw.drop 4).take 4) + 1 > raw.length))]
  · intro tl blob pad payload hok
    simp only [parse_container] at hok
    split at hok
    · cases hok
    · split at hok
      · cases hok
      · split at hok
        · cases hok
        · simp only [Except.ok.injEq, Prod.mk.injEq] at hok
          obtain ⟨rfl, rfl, rfl, rfl⟩ := hok
          exact ⟨rfl, rfl, rfl, rfl⟩
  · intro e herr
    simp only [decompress_file, herr]
    rfl

theorem parse_container_error_characterization_witness :
    (¬([72, 85, 70, 70, 0, 0, 0, 0, 0].length < 9 ∨
        [72, 85, 70, 70, 0, 0, 0, 0, 0].take 4 ≠ MAGIC ∨
        9 + beU32val (([72, 85, 70, 70, 0, 0, 0, 0, 0].drop 4).take 4) >
          [72, 85, 70, 70, 0, 0, 0, 0, 0].length) →
      ∃ v, parse_container [72, 85, 70, 70, 0, 0, 0, 0, 0] = .ok v) ∧
    decompress_file [1, 2] = .error DErr.tooSmall :=
  ⟨(parse_container_error_characterization [72, 85, 70, 70, 0, 0, 0, 0, 0]).1.mpr,
   (parse_container_error_characterization [1, 2]).2.2 DErr.tooSmall (by decide)⟩

/-- C7: tree deserialization succeeds exactly on the empty blob (null
root, no error) and on byte sequences that are the complete preorder
encoding of one well-formed tree; on every other blob it fails, and the
parser's error type enumerates the failure kinds: a missing tag byte or
missing leaf symbol byte (truncation), a tag byte that is neither 1 (leaf)
nor 0 (internal), or trailing bytes after one complete tree. -/
theorem deserialize_error_characterization (blob : List Nat) :
    deserialize [] = .ok Node.nil ∧
    ((∃ t, deserialize blob = .ok t) ↔
      blob = [] ∨ ∃ t, isPure t = true ∧ ser t = blob) :=
  ⟨deserialize_nil, deserialize_ok_characterization blob⟩

theorem deserialize_error_characterization_witness :
    (∃ t, deserialize [1, 97] = .ok t) ∧
    exceptOk (deserialize [0, 1, 97]) = false ∧
    exceptOk (deserialize [2, 5]) = false ∧
    exceptOk (deserialize [1, 97, 0]) = false :=
  ⟨(deserialize_error_characterization [1, 97]).2.mpr
     (Or.inr ⟨Node.mk (some 97) 0 Node.nil Node.nil, by decide, by decide⟩),
   by decide, by decide, by decide⟩

/-- C8: serializing any tree that satisfies the data model (each node a
leaf with a byte symbol and no children, or an internal node with two
non-null children) and deserializing the result succeeds and returns a
tree of the same shape with the same symbols; only the node weights differ
(they are reset to 0, since the encoding does not store them). -/
theorem serialize_then_deserialize_preserves_shape (t : Node)
    (hdm : dataModel t = true) :
    ∃ blob t', serialize t = some blob ∧ deserialize blob = .ok t' ∧
      sameShapeSym t t' = true := by
  have hp : proper t = true := dataModel_proper hdm
  refine ⟨ser t, zeroFreq t, serialize_proper hp, ?_, sameShapeSym_zeroFreq t⟩
  have : deserialize (ser (zeroFreq t)) = .ok (zeroFreq t) :=
    deserialize_ser (isPure_zeroFreq hp)
  rwa [ser_zeroFreq] at this

theorem serialize_then_deserialize_preserves_shape_witness :
    dataModel (Node.mk none 5 (Node.mk (some 97) 3 Node.nil Node.nil)
      (Node.mk (some 98) 2 Node.nil Node.nil)) = true ∧
    (∃ blob t', serialize (Node.mk none 5 (Node.mk (some 97) 3 Node.nil Node.nil)
        (Node.mk (some 98) 2 Node.nil Node.nil)) = some blob ∧
      deserialize blob = .ok t' ∧
      sameShapeSym (Node.mk none 5 (Node.mk (some 97) 3 Node.nil Node.nil)
        (Node.mk (some 98) 2 Node.nil Node.nil)) t' = true) :=
  ⟨by decide,
   serialize_then_deserialize_preserves_shape _ (by decide)⟩

/-- C9: for every frequency map, in the code table generated from the
built tree every symbol's code is a non-empty bit-string, and no entry's
code is a prefix of a different symbol's code. -/
theorem generated_codes_nonempty_and_antichain (fm : List (Nat × Nat))
    (s1 s2 : Nat) (c1 c2 : List Bool)
    (h1 : (s1, c1) ∈ make_codes (build_tree (heap_from_freq fm)))
    (h2 : (s2, c2) ∈ make_codes (build_tree (heap_from_freq fm))) :
    c1 ≠ [] ∧ (s1 ≠ s2 → ¬ c1 <+: c2) :=
  ⟨make_codes_code_ne_nil _ _ _ h1,
   fun hne => make_codes_antichain _ _ _ _ _ h1 h2 hne⟩

theorem generated_codes_nonempty_and_antichain_witness :
    ((97, [true]) ∈ make_codes (build_tree (heap_from_freq [(97, 3), (98, 1)]))) ∧
    ([true] : List Bool) ≠ [] ∧ ¬ ([true] : List Bool) <+: [false] :=
  ⟨by decide,
   (generated_codes_nonempty_and_antichain [(97, 3), (98, 1)] 97 98 [true] [false]
      (by decide) (by decide)).1,
   (generated_codes_nonempty_and_antichain [(97, 3), (98, 1)] 97 98 [true] [false]
      (by decide) (by decide)).2 (by decide)⟩

/-- C10: every tree deserialized from a non-empty well-formed blob is
full - each symbol-free node has two non-null children - and when its root
is internal the decoder loop can never step to a missing child: decoding
any bit string succeeds (the corrupt-bitstream error is unreachable for
such trees). -/
theorem deserialized_trees_full_decoder_total (blob : List Nat) (t : Node)
    (hok : deserialize blob = .ok t) (hne : t ≠ Node.nil) :
    internalFull t = true ∧
    (t.sym = none → ∀ bits, ∃ out, decodeFrom t t bits = .ok out) := by
  have hblob : blob ≠ [] := by
    rintro rfl
    rw [deserialize_nil] at hok
    cases hok
    exact hne rfl
  obtain ⟨hpure, -⟩ := deserialize_sound hblob hok
  have hfull := isPure_internalFull hpure
  exact ⟨hfull, fun hsym bits =>
    decodeFrom_total t hfull hsym hne bits t hfull hsym hne⟩

theorem deserialized_trees_full_decoder_total_witness :
    deserialize [0, 1, 97, 1, 98] =
      .ok (Node.mk none 0 (Node.mk (some 97) 0 Node.nil Node.nil)
        (Node.mk (some 98) 0 Node.nil Node.nil)) ∧
    internalFull (Node.mk none 0 (Node.mk (some 97) 0 Node.nil Node.nil)
      (Node.mk (some 98) 0 Node.nil Node.nil)) = true ∧
    (∃ out, decodeFrom
      (Node.mk none 0 (Node.mk (some 97) 0 Node.nil Node.nil)
        (Node.mk (some 98) 0 Node.nil Node.nil))
      (Node.mk none 0 (Node.mk (some 97) 0 Node.nil Node.nil)
        (Node.mk (some 98) 0 Node.nil Node.nil))
      [false, true] = .ok out) :=
  ⟨by decide,
   (deserialized_trees_full_decoder_total [0, 1, 97, 1, 98]
      (Node.mk none 0 (Node.mk (some 97) 0 Node.nil Node.nil)
        (Node.mk (some 98) 0 Node.nil Node.nil)) (by decide) (by decide)).1,
   (deserialized_trees_full_decoder_total [0, 1, 97, 1, 98]
      (Node.mk none 0 (Node.mk (some 97) 0 Node.nil Node.nil)
        (Node.mk (some 98) 0 Node.nil Node.nil)) (by decide) (by decide)).2
     rfl [false, true]⟩

theorem serialize_mk (s : Option Nat) (w : Nat) (l r : Node) :
    serialize (Node.mk s w l r) = serializeDfs (Node.mk s w l r) := rfl

theorem bind_ok_except {ε α β : Type _} (a : α) (k : α → Except ε β) :
    Bind.bind (Except.ok a : Except ε α) k = k a := rfl

theorem make_codes_codeLands {t : Node} (hp : proper t = true) (hs : t.sym = none)
    {s : Nat} {c : List Bool} (hmem : (s, c) ∈ make_codes t) :
    codeLands t c = some s := by
  cases t with
  | nil => cases hp
  | mk ts tw tl tr =>
    cases ts with
    | some v => cases hs
    | none =>
      rw [make_codes_internal] at hmem
      exact codeLands_walkRel _ hp rfl s c hmem

/-- Parsing a container assembled from its pieces recovers the pieces. -/
theorem parse_container_of_pieces (blob pay : List Nat) (pad : Nat)
    (hbound : blob.length < 4294967296) :
    parse_container (MAGIC ++ beU32enc blob.length ++ blob ++ [pad] ++ pay) =
      .ok (blob.length, blob, pad, pay) := by
  have hME : (MAGIC ++ beU32enc blob.length).length = 8 := by
    simp [MAGIC, beU32enc_length]
  have hfullM : MAGIC ++ beU32enc blob.length ++ blob ++ [pad] ++ pay =
      MAGIC ++ (beU32enc blob.length ++ (blob ++ ([pad] ++ pay))) := by
    simp only [List.append_assoc]
  have hfull8 : MAGIC ++ beU32enc blob.length ++ blob ++ [pad] ++ pay =
      (MAGIC ++ beU32enc blob.length) ++ (blob ++ ([pad] ++ pay)) := by
    simp only [List.append_assoc]
  have hfullB : MAGIC ++ beU32enc blob.length ++ blob ++ [pad] ++ pay =
      ((MAGIC ++ beU32enc blob.length) ++ blob) ++ ([pad] ++ pay) := by
    simp only [List.append_assoc]
  have hfullP : MAGIC ++ beU32enc blob.length ++ blob ++ [pad] ++ pay =
      (((MAGIC ++ beU32enc blob.length) ++ blob) ++ [pad]) ++ pay := by
    simp only [List.append_assoc]
  have hlen : (MAGIC ++ beU32enc blob.length ++ blob ++ [pad] ++ pay).length =
      9 + blob.length + pay.length := by
    simp [MAGIC, beU32enc_length]
    omega
  have htake4 : (MAGIC ++ beU32enc blob.length ++ blob ++ [pad] ++ pay).take 4 = MAGIC := by
    rw [hfullM]
    exact List.take_left' rfl
  have hdrop4 : ((MAGIC ++ beU32enc blob.length ++ blob ++ [pad] ++ pay).drop 4).take 4 =
      beU32enc blob.length := by
    rw [hfullM, List.drop_left' (show (MAGIC : List Nat).length = 4 from rfl),
      ← List.append_assoc]
    exact List.take_left' (beU32enc_length _)
  have hval : beU32val (((MAGIC ++ beU32enc blob.length ++ blob ++ [pad] ++ pay).drop 4).take 4)
      = blob.length := by
    rw [hdrop4]
    exact beU32_roundtrip hbound
  have hblobx : ((MAGIC ++ beU32enc blob.length ++ blob ++ [pad] ++ pay).drop 8).take
      blob.length = blob := by
    rw [hfull8, List.drop_left' hME]
    exact List.take_left' rfl
  have hpadx : ((MAGIC ++ beU32enc blob.length ++ blob ++ [pad] ++ pay).drop
      (8 + blob.length)).headD 0 = pad := by
    rw [hfullB, List.drop_left' (by rw [List.length_append, hME])]
    rfl
  have hpayx : (MAGIC ++ beU32enc blob.length ++ blob ++ [pad] ++ pay).drop
      (9 + blob.length) = pay := by
    rw [hfullP, List.drop_left' (by
      simp only [List.length_append, List.length_cons, List.length_nil, hME]
      omega)]
  simp only [parse_container]
  rw [if_neg (by omega), if_neg (fun h => h htake4), hval, if_neg (by omega),
    hblobx, hpadx, hpayx]

/-- C1 counterexample: the round-trip property fails as stated.  For the
two-byte input `b"ab"` the assembled container (15 bytes) is not smaller
than the input (2 bytes), so `compress_file` copies the original verbatim
over the destination; decompressing that destination fails (no magic
marker), hence `Decompress(Compress(b"ab")) != b"ab"`. -/
theorem round_trip_claim_false_on_two_bytes :
    compressWrites "a.txt" [97, 98] =
      some [[72, 85, 70, 70, 0, 0, 0, 5, 0, 1, 97, 1, 98, 6, 64], [97, 98]] ∧
    exceptOk (decompress_file [97, 98]) = false := by decide

/-- C1 amended: whenever a compression call actually keeps its Huffman
container (it returns without error and without the skipped flag - which
requires at least two distinct byte values and a container strictly smaller
than the input), the destination holds exactly that container and
decompressing it restores the original bytes. -/
theorem compress_decompress_round_trip_when_container_written
    (src : String) (raw : List Nat) (res : CompressResult)
    (hbytes : ∀ b ∈ raw, b < 256)
    (hok : compress_file src raw = .ok res)
    (hns : res.stats.skipped = false) :
    ∃ container, res.writes = [container] ∧ decompress_file container = .ok raw := by
  cases hskip : skipHuff src raw with
  | true =>
    simp only [compress_file, hskip, if_true] at hok
    cases hok
    simp at hns
  | false =>
  cases hext : skipExt src with
  | true =>
    simp only [compress_file, hskip, hext, Bool.false_eq_true, if_false, if_true] at hok
    cases hok
    simp at hns
  | false =>
  rw [compress_file_normal_eq src raw hskip hext] at hok
  simp only [compress_normal] at hok
  split at hok
  · cases hok
  rename_i root₀ freq₀ blob₀ pad₀ comp₀ hpack
  by_cases hge : 4 + 4 + blob₀.length + 1 + comp₀.length ≥ raw.length
  · rw [if_pos hge] at hok
    cases hok
    simp at hns
  rw [if_neg hge] at hok
  cases hok
  clear hns
  refine ⟨MAGIC ++ beU32enc blob₀.length ++ blob₀ ++ [pad₀] ++ comp₀, rfl, ?_⟩
  -- Unpack the pipeline equation.
  simp only [huffman_pack] at hpack
  split at hpack
  · cases hpack
  rename_i bitstr henc
  split at hpack
  · cases hpack
  rename_i blob₁ hser
  simp only [Except.ok.injEq, Prod.mk.injEq] at hpack
  obtain ⟨hroot, hfreq, hblob, hpad, hcomp⟩ := hpack
  subst hroot hfreq hblob hpad hcomp
  -- Rule out the empty and single-symbol inputs.
  have hraw : raw ≠ [] := by
    rintro rfl
    simp at hge
  have hfm_ne : build_freq_map raw ≠ [] := fun h => hraw (build_freq_map_eq_nil.mp h)
  have hfm2 : 2 ≤ (build_freq_map raw).length := by
    rcases hcase : (build_freq_map raw).length with _ | _ | n
    · exact absurd (List.eq_nil_of_length_eq_zero hcase) hfm_ne
    · exfalso
      obtain ⟨p, hp⟩ := List.length_eq_one.mp hcase
      rw [hp] at hser
      have hsingle : build_tree (heap_from_freq [p]) =
          Node.mk none p.2 (Node.mk (some p.1) p.2 Node.nil Node.nil) Node.nil := rfl
      rw [hsingle, serialize_mk, serializeDfs_right_nil] at hser
      cases hser
    · omega
  obtain ⟨hproper, hsym, hsyms, hcount⟩ := build_tree_spec (build_freq_map raw) hfm2
  have hnil : build_tree (heap_from_freq (build_freq_map raw)) ≠ Node.nil :=
    proper_ne_nil hproper
  rw [if_pos hnil] at henc
  rw [serialize_proper hproper] at hser
  have hblob : blob₁ = ser (build_tree (heap_from_freq (build_freq_map raw))) := by
    cases hser
    rfl
  subst hblob
  -- Abbreviations.
  set root₀ := build_tree (heap_from_freq (build_freq_map raw)) with hroot₀
  -- Size bound on the tree blob.
  have hL : (leafSyms root₀).length ≤ 256 := by
    rw [hcount, length_build_freq_map]
    refine nodup_bounded_length (nodup_uniqueSyms raw) ?_
    intro x hx
    exact hbytes x (mem_uniqueSyms.mp hx)
  have hserlen := ser_length_proper hproper
  have hbound : (ser root₀).length < 4294967296 := by omega
  have hblen_pos : 0 < (ser root₀).length :=
    List.length_pos.mpr (ser_ne_nil hnil)
  -- The packed payload.
  have hbits_ne : bitstr ≠ [] :=
    encode_bytes_ne_nil hraw (fun s c h => make_codes_code_ne_nil root₀ s c h) henc
  have hpadded : (pad_bits bitstr).1 = bitstr ++ List.replicate ((pad_bits bitstr).2) false := by
    rw [pad_bits_fst hbits_ne, pad_bits_snd hbits_ne]
  have hmod : (pad_bits bitstr).1.length % 8 = 0 := pad_bits_mod hbits_ne
  have hpadlt : (pad_bits bitstr).2 < 8 := pad_bits_le hbits_ne
  have hrt : bytes_to_bits (bits_to_bytes (pad_bits bitstr).1) = (pad_bits bitstr).1 :=
    bytes_bits_roundtrip (pad_bits bitstr).1.length _ le_rfl hmod
  -- Parsing the container.
  have hparse := parse_container_of_pieces (ser root₀)
    (bits_to_bytes (pad_bits bitstr).1) (pad_bits bitstr).2 hbound
  -- The decompression pipeline on the container.
  have hdeser : deserialize (ser root₀) = .ok (zeroFreq root₀) := by
    rw [← ser_zeroFreq root₀]
    exact deserialize_ser (isPure_zeroFreq hproper)
  have hcl : ∀ (s : Nat) (c : List Bool),
      (make_codes root₀).lookup s = some c → codeLands (zeroFreq root₀) c = some s := by
    intro s c hlk
    rw [codeLands_zeroFreq]
    exact make_codes_codeLands hproper hsym (lookup_mem hlk)
  have hdec : decodeFrom (zeroFreq root₀) (zeroFreq root₀) bitstr = .ok raw :=
    decodeFrom_encode (zeroFreq root₀) (make_codes root₀) hcl raw bitstr henc
  rw [decompress_file, hparse, bind_ok_except]
  cases hzf : zeroFreq root₀ with
  | nil => exact absurd (zeroFreq_eq_nil.mp hzf) hnil
  | mk zs zw zl zr =>
    rw [hzf] at hdec
    by_cases hp0 : (pad_bits bitstr).2 > 0
    · have hlenp : (pad_bits bitstr).1.length = bitstr.length + (pad_bits bitstr).2 := by
        rw [hpadded]
        simp
      have hbig : ¬((pad_bits bitstr).2 > (pad_bits bitstr).1.length) := by
        rw [hlenp]
        have : 0 < bitstr.length := List.length_pos.mpr hbits_ne
        omega
      have htakeb : List.take ((pad_bits bitstr).1.length - (pad_bits bitstr).2)
          (pad_bits bitstr).1 = bitstr := by
        rw [hlenp]
        have hsub : bitstr.length + (pad_bits bitstr).2 - (pad_bits bitstr).2 =
            bitstr.length := by omega
        rw [hsub, hpadded, List.take_left]
      simp only [hrt, if_pos hp0, if_neg hbig, htakeb, if_pos hblen_pos, hdeser, hzf]
      exact hdec
    · have hz0 : (pad_bits bitstr).2 = 0 := by omega
      simp only [hrt, if_neg hp0, if_pos hblen_pos, hdeser, hzf]
      have hpad1 : (pad_bits bitstr).1 = bitstr := by
        rw [hpadded, hz0]
        simp
      rw [hpad1]
      exact hdec

theorem compress_decompress_round_trip_when_container_written_witness :
    (∀ b ∈ List.replicate 23 97 ++ [98], b < 256) ∧
    compressSkipped "t.txt" (List.replicate 23 97 ++ [98]) = some false ∧
    (∃ res container, compress_file "t.txt" (List.replicate 23 97 ++ [98]) = .ok res ∧
      res.writes = [container] ∧
      decompress_file container = .ok (List.replicate 23 97 ++ [98])) := by
  refine ⟨by decide, by decide, ?_⟩
  have hsk : compressSkipped "t.txt" (List.replicate 23 97 ++ [98]) = some false := by decide
  cases hres : compress_file "t.txt" (List.replicate 23 97 ++ [98]) with
  | error e =>
    exfalso
    rw [compressSkipped, hres] at hsk
    simp [Except.toOption] at hsk
  | ok res =>
    rw [compressSkipped, hres] at hsk
    simp only [Except.toOption, Option.map] at hsk
    obtain ⟨container, hw, hd⟩ :=
      compress_decompress_round_trip_when_container_written "t.txt"
        (List.replicate 23 97 ++ [98]) res (by decide) hres (Option.some.inj hsk)
    exact ⟨res, container, rfl, hw, hd⟩

end Huff
